import Mathlib

/-!
Shallow embedding of `src/lib.rs` of the `understanding-bitwise` crate.

Machine integers are modelled as `Nat`: a `u32` value is a natural number
below `2 ^ 32`, a `u8` value a natural number below `2 ^ 8 = 256`.  Every
Rust operation that can discard high bits (`<<` on `u32`/`u8`) is followed
by an explicit `% 2 ^ 32` (resp. `% 256`).  Rust's shift operators panic
when the shift amount reaches the bit width (with debug assertions; with
unchecked arithmetic the amount is masked); the one place in the source
where the amount can reach the width (`remove_bit`, shifting by
`index + 1`) is therefore modelled with an explicit checked shift, and a
second definition records the masked (release-mode) behaviour.
-/

namespace UnderstandingBitwise

/-- Unit error value used by `power_of_two`, mirroring `struct Overflow;`. -/
inductive Overflow : Type
  | mk : Overflow
deriving DecidableEq

/-- Embedding of `power_of_two`: `if power < u32::BITS { Ok(1 << power) } else { Err(Overflow) }`. -/
def power_of_two (power : Nat) : Except Overflow Nat :=
  if power < 32 then .ok (1 <<< power) else .error .mk

/-- Embedding of `process_binary_until_hob`: calls `f` on the current value,
right-shifts by one, stops when the shifted value is zero.  The Rust `FnMut`
closure is modelled as a fold over an explicit accumulator. -/
def process_binary_until_hob {α : Type} (f : Nat → α → α) (number : Nat) (acc : α) : α :=
  let acc2 := f number acc
  if h : number >>> 1 = 0 then acc2
  else process_binary_until_hob f (number >>> 1) acc2
termination_by number
decreasing_by
  have h1 : number >>> 1 = number / 2 := Nat.shiftRight_one number
  omega

/-- Embedding of `binary_ones_count`: folds `count += number & 1` through
`process_binary_until_hob`. -/
def binary_ones_count (number : Nat) : Nat :=
  process_binary_until_hob (fun number count => count + (number &&& 1)) number 0

/-- Loop body of `binary_ones_count_sub_method`: repeatedly replaces
`number` with `number & (number - 1)` counting iterations, until zero. -/
def sub_method_loop (number count : Nat) : Nat :=
  let number2 := number &&& (number - 1)
  let count2 := count + 1
  if h : number2 = 0 then count2 else sub_method_loop number2 count2
termination_by number
decreasing_by
  have h1 : number &&& (number - 1) ≤ number - 1 := Nat.and_le_right
  omega

/-- Embedding of `binary_ones_count_sub_method`: `0` maps to `0`, any other
number runs the subtraction loop starting from count `0`. -/
def binary_ones_count_sub_method (number : Nat) : Nat :=
  match number with
  | 0 => 0
  | _ => sub_method_loop number 0

/-- Embedding of `no_hob`: a number has no highest order bit iff it is zero. -/
def no_hob (number : Nat) : Bool :=
  number == 0

/-- Embedding of `hob`: counts the iterations of `process_binary_until_hob`
and returns that count minus one. -/
def hob (number : Nat) : Option Nat :=
  if no_hob number then none
  else some (process_binary_until_hob (fun _ index => index + 1) number 0 - 1)

/-- Loop of `hob_thr`: while `number < threshold`, halve the threshold and
decrement the index. -/
def hob_thr_loop (number threshold index : Nat) : Nat :=
  if h : number < threshold then hob_thr_loop number (threshold >>> 1) (index - 1)
  else index
termination_by threshold
decreasing_by
  have h1 : threshold >>> 1 = threshold / 2 := Nat.shiftRight_one threshold
  omega

/-- Embedding of `hob_thr`: threshold method, starting from threshold
`1 << 31` and index `31`. -/
def hob_thr (number : Nat) : Option Nat :=
  if no_hob number then none
  else some (hob_thr_loop number (1 <<< 31) 31)

/-- Loop of `hob_comp_pot`: scans candidate indices downward from `i`,
returning the first index whose power of two is contained in `number`. -/
def hob_comp_pot_loop (number : Nat) : Nat → Option Nat
  | 0 =>
    let pow_of_two := 1 <<< 0
    if number &&& pow_of_two = pow_of_two then some 0 else none
  | j + 1 =>
    let pow_of_two := 1 <<< (j + 1)
    if number &&& pow_of_two = pow_of_two then some (j + 1)
    else hob_comp_pot_loop number j

/-- Embedding of `hob_comp_pot`: scans bit positions from `31` down to `0`. -/
def hob_comp_pot (number : Nat) : Option Nat :=
  if no_hob number then none
  else hob_comp_pot_loop number 31

/-- Embedding of `manipulate_bit`: range guard shared by the single-bit
operations; indices at or above the width yield `none`. -/
def manipulate_bit (index : Nat) (f : Unit → Nat) : Option Nat :=
  if index ≥ 32 then none
  else some (f ())

/-- Embedding of `set_bit`: `number | 1 << index` under the range guard. -/
def set_bit (number index : Nat) : Option Nat :=
  manipulate_bit index (fun _ => number ||| 1 <<< index)

/-- Embedding of `unset_bit` (subtraction method):
`(number | 1 << index) - (1 << index)` under the range guard. -/
def unset_bit (number index : Nat) : Option Nat :=
  manipulate_bit index (fun _ => (number ||| 1 <<< index) - (1 <<< index))

/-- Embedding of `unset_bit_xor`: `number & (number ^ 1 << index)` under the
range guard. -/
def unset_bit_xor (number index : Nat) : Option Nat :=
  manipulate_bit index (fun _ => number &&& (number ^^^ 1 <<< index))

/-- Embedding of `unset_bit_bitwise_not`: `number & !(1 << index)`; the `u32`
bitwise complement of `x` is `(2^32 - 1) ^^^ x`. -/
def unset_bit_bitwise_not (number index : Nat) : Option Nat :=
  manipulate_bit index (fun _ => number &&& ((2 ^ 32 - 1) ^^^ 1 <<< index))

/-- Embedding of `invert_bit`: `number ^ 1 << index` under the range guard. -/
def invert_bit (number index : Nat) : Option Nat :=
  manipulate_bit index (fun _ => number ^^^ 1 <<< index)

/-- Rust `u8` left shift: the result is truncated to eight bits. -/
def u8_shl (byte count : Nat) : Nat :=
  (byte <<< count) % 256

/-- Rust `u8` right shift. -/
def u8_shr (byte count : Nat) : Nat :=
  byte >>> count

/-- Embedding of `circular_sh_base`: zero byte maps to zero; otherwise the
effective count is `count % u8::BITS`, and a zero effective count returns the
byte unchanged. -/
def circular_sh_base (byte count : Nat) (f1 f2 : Nat → Nat → Nat) : Nat :=
  if byte = 0 then 0
  else
    let safe_count := count % 8
    if safe_count = 0 then byte
    else f1 byte safe_count ||| f2 byte (8 - safe_count)

/-- Embedding of `circular_shl`: rotate left within eight bits. -/
def circular_shl (byte count : Nat) : Nat :=
  circular_sh_base byte count u8_shl u8_shr

/-- Embedding of `circular_shr`: rotate right within eight bits. -/
def circular_shr (byte count : Nat) : Nat :=
  circular_sh_base byte count u8_shr u8_shl

/-- Embedding of `consecutive_ones_number`: `1..=31` maps to `(1 << count) - 1`,
`32` maps to `u32::MAX`, anything else to `none`. -/
def consecutive_ones_number (consecutive_ones_count : Nat) : Option Nat :=
  if 1 ≤ consecutive_ones_count ∧ consecutive_ones_count ≤ 31 then
    some ((1 <<< consecutive_ones_count) - 1)
  else if consecutive_ones_count = 32 then some (2 ^ 32 - 1)
  else none

/-- Loop of `consecutive_ones_entries_count`: slides the pattern left one bit
per iteration, counting exact matches, and stops once the pattern's bit 31 is
set.  The Rust loop has no fuel; every pattern produced by
`consecutive_ones_number` is `2^c - 1` with `1 ≤ c ≤ 32`, whose highest set
bit reaches position 31 after at most `31` shifts, so the loop body runs at
most `32` times and a fuel of `33` never runs out on a reachable input. -/
def entries_loop (number : Nat) : Nat → Nat → Nat → Nat
  | 0, _, matched => matched
  | fuel + 1, pattern, matched =>
    let matched2 := if pattern &&& number = pattern then matched + 1 else matched
    if pattern &&& (1 <<< 31) = 1 <<< 31 then matched2
    else entries_loop number fuel ((pattern <<< 1) % 2 ^ 32) matched2

/-- Embedding of `consecutive_ones_entries_count`: builds the pattern with
`consecutive_ones_number` (propagating `none`) and runs the sliding loop. -/
def consecutive_ones_entries_count (number consecutive_ones_count : Nat) : Option Nat :=
  (consecutive_ones_number consecutive_ones_count).map
    (fun pattern => entries_loop number 33 pattern 0)

/-- Embedding of `swap_bits_base`: both indices must lie in `0..32`; equal
indices return the number unchanged; otherwise the supplied swap body runs. -/
def swap_bits_base (number index1 index2 : Nat) (f : Unit → Nat) : Option Nat :=
  if ¬ index1 < 32 ∨ ¬ index2 < 32 then none
  else if index1 = index2 then some number
  else some (f ())

/-- Embedding of `swap_bits` (direct mask arithmetic).  `min_index` and
`max_index` mirror the conditional `mem::swap`; the left shift by `distance`
is truncated to 32 bits as in `u32` arithmetic. -/
def swap_bits (number index1 index2 : Nat) : Option Nat :=
  swap_bits_base number index1 index2 (fun _ =>
    let min_index := if index1 > index2 then index2 else index1
    let max_index := if index1 > index2 then index1 else index2
    let distance := max_index - min_index
    let min_index_number := 1 <<< min_index
    let max_index_number := 1 <<< max_index
    number &&& (number ^^^ min_index_number ^^^ max_index_number) |||
      (number >>> distance) &&& min_index_number |||
      ((number <<< distance) % 2 ^ 32) &&& max_index_number)

/-- Embedding of `swap_bits_xor`: builds a swapper mask from the XOR of the
two addressed bits and XORs it in at both positions. -/
def swap_bits_xor (number index1 index2 : Nat) : Option Nat :=
  swap_bits_base number index1 index2 (fun _ =>
    let bit1 := (number >>> index1) &&& 1
    let bit2 := (number >>> index2) &&& 1
    let swapper := bit1 ^^^ bit2
    let swapper2 := (swapper <<< index1) % 2 ^ 32 ||| (swapper <<< index2) % 2 ^ 32
    number ^^^ swapper2)

/-- Panic signal for an overflowing shift: a Rust shift whose amount reaches
the bit width is a program error (it panics when debug assertions are on). -/
inductive Panic : Type
  | shiftOverflow : Panic
deriving DecidableEq

/-- Rust `u32 >> n` with the overflow check: amounts of 32 or more panic. -/
def u32_checked_shr (x n : Nat) : Except Panic Nat :=
  if n < 32 then .ok (x >>> n) else .error .shiftOverflow

/-- Embedding of `remove_bit` under Rust's checked-shift semantics.  The
range guard admits `index = 31`, but the body then computes
`number >> (index + 1) = number >> 32`, an overflowing shift, so that case
panics.  The other two shifts (`>> index` and `<< index`) have amounts below
32 whenever the guard passes and cannot panic. -/
def remove_bit (number index : Nat) : Except Panic (Option Nat) :=
  if ¬ index < 32 then .ok none
  else
    match u32_checked_shr number (index + 1) with
    | .error p => .error p
    | .ok high =>
      let remover := high ^^^ number >>> index
      let remover2 := (remover <<< index) % 2 ^ 32
      .ok (some (number ^^^ remover2))

/-- Embedding of `remove_bit` under release-mode (masked-shift) semantics:
the shift amount is reduced modulo 32 instead of panicking. -/
def remove_bit_masked (number index : Nat) : Option Nat :=
  if ¬ index < 32 then none
  else
    let remover := number >>> ((index + 1) % 32) ^^^ number >>> index
    let remover2 := (remover <<< index) % 2 ^ 32
    some (number ^^^ remover2)

/-- Iterated application of `remove_bit` at index `0`, mirroring the fold in
`test_remove_bit`: each step must produce a present value that feeds the next
step; a panic or an absent value stops the iteration and is returned as is. -/
def remove_bit_iter : Nat → Nat → Except Panic (Option Nat)
  | 0, number => .ok (some number)
  | k + 1, number =>
    match remove_bit number 0 with
    | .ok (some v) => remove_bit_iter k v
    | r => r

/-- Number of set bits of a natural number, by parity recursion: the
specification value both population-count implementations are compared to. -/
def countOnes (n : Nat) : Nat :=
  if h : n = 0 then 0 else n % 2 + countOnes (n / 2)
termination_by n
decreasing_by omega

/-- Frame property of the single-bit operations: the result is present and
agrees with the input on every bit position other than `index`. -/
def preservesOtherBits (number index : Nat) (r : Option Nat) : Prop :=
  ∃ v, r = some v ∧ ∀ j, j ≠ index → v.testBit j = number.testBit j

/-! ## Helper lemmas -/

theorem countOnes_zero : countOnes 0 = 0 := by
  unfold countOnes
  simp

theorem countOnes_ne_zero (n : Nat) (h : n ≠ 0) :
    countOnes n = n % 2 + countOnes (n / 2) := by
  conv_lhs => unfold countOnes
  simp [h]

theorem countOnes_two_mul (m : Nat) : countOnes (2 * m) = countOnes m := by
  rcases Nat.eq_zero_or_pos m with h | h
  · simp [h]
  · rw [countOnes_ne_zero (2 * m) (by omega)]
    have h1 : 2 * m % 2 = 0 := by omega
    have h2 : 2 * m / 2 = m := by omega
    rw [h1, h2, Nat.zero_add]

theorem countOnes_two_mul_add_one (m : Nat) : countOnes (2 * m + 1) = countOnes m + 1 := by
  rw [countOnes_ne_zero (2 * m + 1) (by omega)]
  have h1 : (2 * m + 1) % 2 = 1 := by omega
  have h2 : (2 * m + 1) / 2 = m := by omega
  rw [h1, h2, Nat.add_comm]

theorem and_parity_split (a b : Nat) :
    a &&& b = 2 * (a / 2 &&& b / 2) + (a &&& b) % 2 := by
  have h1 : (a &&& b) / 2 = a / 2 &&& b / 2 := Nat.and_div_two
  have h2 := Nat.div_add_mod (a &&& b) 2
  omega

theorem odd_and_pred (m : Nat) : (2 * m + 1) &&& (2 * m) = 2 * m := by
  have h1 := and_parity_split (2 * m + 1) (2 * m)
  have h2 : (2 * m + 1) / 2 = m := by omega
  have h3 : (2 * m) / 2 = m := by omega
  have h4 : ((2 * m + 1) &&& (2 * m)) % 2 ≠ 1 := by
    simp only [ne_eq, Nat.and_mod_two_eq_one]
    omega
  have h5 : ((2 * m + 1) &&& (2 * m)) % 2 < 2 := Nat.mod_lt _ (by omega)
  rw [h2, h3, Nat.and_self] at h1
  omega

theorem even_and_pred (m : Nat) (hm : 1 ≤ m) :
    (2 * m) &&& (2 * m - 1) = 2 * (m &&& (m - 1)) := by
  have h1 := and_parity_split (2 * m) (2 * m - 1)
  have h2 : (2 * m) / 2 = m := by omega
  have h3 : (2 * m - 1) / 2 = m - 1 := by omega
  have h4 : ((2 * m) &&& (2 * m - 1)) % 2 ≠ 1 := by
    simp only [ne_eq, Nat.and_mod_two_eq_one]
    omega
  have h5 : ((2 * m) &&& (2 * m - 1)) % 2 < 2 := Nat.mod_lt _ (by omega)
  rw [h2, h3] at h1
  omega

theorem countOnes_and_pred (n : Nat) (h : n ≠ 0) :
    countOnes (n &&& (n - 1)) + 1 = countOnes n := by
  induction n using Nat.strong_induction_on with
  | _ n ih =>
    rcases Nat.even_or_odd n with ⟨m, hm⟩ | ⟨m, hm⟩
    · -- n = 2 * m with m ≥ 1
      have hm1 : 1 ≤ m := by omega
      have e1 : n &&& (n - 1) = 2 * (m &&& (m - 1)) := by
        rw [show n = 2 * m by omega]
        exact even_and_pred m hm1
      rw [e1, countOnes_two_mul, show n = 2 * m by omega, countOnes_two_mul]
      exact ih m (by omega) (by omega)
    · -- n = 2 * m + 1
      have e1 : n &&& (n - 1) = 2 * m := by
        rw [show n = 2 * m + 1 by omega, show 2 * m + 1 - 1 = 2 * m by omega]
        exact odd_and_pred m
      rw [e1, countOnes_two_mul, show n = 2 * m + 1 by omega, countOnes_two_mul_add_one]

theorem sub_method_loop_eq (n : Nat) (h : n ≠ 0) :
    ∀ c, sub_method_loop n c = c + countOnes n := by
  induction n using Nat.strong_induction_on with
  | _ n ih =>
    intro c
    have key := countOnes_and_pred n h
    rw [sub_method_loop]
    by_cases h2 : n &&& (n - 1) = 0
    · simp only [h2, dif_pos]
      rw [h2, countOnes_zero] at key
      omega
    · simp only [h2, dif_neg, not_false_iff]
      have hlt : n &&& (n - 1) < n := by
        have := Nat.and_le_right (n := n) (m := n - 1)
        omega
      rw [ih (n &&& (n - 1)) hlt h2 (c + 1)]
      omega

theorem process_ones_eq (n : Nat) :
    ∀ acc, process_binary_until_hob (fun m c => c + (m &&& 1)) n acc = acc + countOnes n := by
  induction n using Nat.strong_induction_on with
  | _ n ih =>
    intro acc
    rw [process_binary_until_hob]
    have hs : n >>> 1 = n / 2 := Nat.shiftRight_one n
    have ha : n &&& 1 = n % 2 := Nat.and_one_is_mod n
    by_cases h2 : n >>> 1 = 0
    · simp only [h2, dif_pos]
      rcases Nat.eq_zero_or_pos n with h0 | h0
      · simp [h0, countOnes_zero]
      · rw [countOnes_ne_zero n (by omega), show n / 2 = 0 by omega, countOnes_zero, ha]
        omega
    · simp only [h2, dif_neg, not_false_iff]
      rw [ih (n >>> 1) (by omega) (acc + (n &&& 1)), hs, ha,
        countOnes_ne_zero n (by omega)]
      omega

theorem binary_ones_count_eq_countOnes (n : Nat) : binary_ones_count n = countOnes n := by
  rw [binary_ones_count, process_ones_eq n 0, Nat.zero_add]

theorem binary_ones_count_sub_method_eq_countOnes (n : Nat) :
    binary_ones_count_sub_method n = countOnes n := by
  match n with
  | 0 => rw [show binary_ones_count_sub_method 0 = 0 from rfl, countOnes_zero]
  | m + 1 =>
    rw [show binary_ones_count_sub_method (m + 1) = sub_method_loop (m + 1) 0 from rfl,
      sub_method_loop_eq (m + 1) (by omega) 0, Nat.zero_add]

theorem countOnes_two_pow_sub_one (k : Nat) : countOnes (2 ^ k - 1) = k := by
  induction k with
  | zero => exact countOnes_zero
  | succ j ih =>
    have h1 : 2 ^ (j + 1) - 1 = 2 * (2 ^ j - 1) + 1 := by
      have := Nat.one_le_two_pow (n := j)
      rw [Nat.pow_succ]
      omega
    rw [h1, countOnes_two_mul_add_one, ih]

theorem and_pow_eq_iff (n k : Nat) : n &&& 2 ^ k = 2 ^ k ↔ n.testBit k = true := by
  rw [Nat.and_two_pow]
  have hp : 0 < 2 ^ k := Nat.two_pow_pos k
  cases h : n.testBit k
  · simp only [Bool.toNat_false, Nat.zero_mul]
    exact iff_of_false (by omega) (by simp)
  · simp

theorem log2_eq_of (n k : Nat) (h1 : 2 ^ k ≤ n) (h2 : n < 2 ^ (k + 1)) : Nat.log2 n = k := by
  have hn : n ≠ 0 := by
    have := Nat.two_pow_pos k
    omega
  have a1 : k ≤ Nat.log2 n := (Nat.le_log2 hn).2 h1
  have a2 : Nat.log2 n < k + 1 := (Nat.log2_lt hn).2 h2
  omega

theorem log2_div_two (n : Nat) (h : 2 ≤ n) : Nat.log2 n = Nat.log2 (n / 2) + 1 := by
  have hn2 : n / 2 ≠ 0 := by omega
  have b1 : 2 ^ Nat.log2 (n / 2) ≤ n / 2 := Nat.log2_self_le hn2
  have b2 : n / 2 < 2 ^ (Nat.log2 (n / 2) + 1) := Nat.lt_log2_self
  apply log2_eq_of
  · have e1 : 2 ^ (Nat.log2 (n / 2) + 1) = 2 * 2 ^ Nat.log2 (n / 2) := by ring
    omega
  · have e2 : 2 ^ (Nat.log2 (n / 2) + 1 + 1) = 2 * 2 ^ (Nat.log2 (n / 2) + 1) := by ring
    omega

theorem process_count_eq (n : Nat) :
    ∀ acc, process_binary_until_hob (fun _ c => c + 1) n acc = acc + Nat.log2 n + 1 := by
  induction n using Nat.strong_induction_on with
  | _ n ih =>
    intro acc
    rw [process_binary_until_hob]
    have hs : n >>> 1 = n / 2 := Nat.shiftRight_one n
    by_cases h2 : n >>> 1 = 0
    · simp only [h2, dif_pos]
      have hl : Nat.log2 n = 0 := by
        rcases (by omega : n = 0 ∨ n = 1) with h | h
        · rw [h, Nat.log2_zero]
        · rw [h]
          exact log2_eq_of 1 0 (by norm_num) (by norm_num)
      omega
    · simp only [h2, dif_neg, not_false_iff]
      rw [ih (n >>> 1) (by omega) (acc + 1), hs, log2_div_two n (by omega)]
      omega

theorem hob_eq_log2 (n : Nat) (h : n ≠ 0) : hob n = some (Nat.log2 n) := by
  simp only [hob, no_hob, beq_iff_eq, h, if_false]
  rw [process_count_eq n 0]
  simp

theorem hob_thr_loop_eq (i : Nat) :
    ∀ n, 1 ≤ n → n < 2 ^ (i + 1) → hob_thr_loop n (2 ^ i) i = Nat.log2 n := by
  induction i with
  | zero =>
    intro n hn1 hn2
    rw [hob_thr_loop]
    have hcond : ¬ n < 2 ^ 0 := by
      simp only [Nat.pow_zero]
      omega
    simp only [hcond, dif_neg, not_false_iff]
    have hn : n = 1 := by
      have : n < 2 ^ 1 := hn2
      simp only [Nat.pow_one] at this
      omega
    rw [hn]
    exact (log2_eq_of 1 0 (by norm_num) (by norm_num)).symm
  | succ j ihj =>
    intro n hn1 hn2
    rw [hob_thr_loop]
    by_cases h : n < 2 ^ (j + 1)
    · simp only [h, dif_pos]
      have hs : 2 ^ (j + 1) >>> 1 = 2 ^ j := by
        rw [Nat.shiftRight_one]
        have e : 2 ^ (j + 1) = 2 * 2 ^ j := by ring
        omega
      rw [hs, show j + 1 - 1 = j from rfl]
      exact ihj n hn1 h
    · simp only [h, dif_neg, not_false_iff]
      exact (log2_eq_of n (j + 1) (by omega) hn2).symm

theorem hob_thr_eq_log2 (n : Nat) (h : n ≠ 0) (h32 : n < 2 ^ 32) :
    hob_thr n = some (Nat.log2 n) := by
  simp only [hob_thr, no_hob, beq_iff_eq, h, if_false]
  rw [show (1 <<< 31 : Nat) = 2 ^ 31 from Nat.one_shiftLeft 31,
    hob_thr_loop_eq 31 n (by omega) h32]

theorem hob_comp_pot_loop_eq (i : Nat) :
    ∀ n, n ≠ 0 → n < 2 ^ (i + 1) → hob_comp_pot_loop n i = some (Nat.log2 n) := by
  induction i with
  | zero =>
    intro n hn hn2
    have h1 : n = 1 := by
      have : n < 2 ^ 1 := hn2
      simp only [Nat.pow_one] at this
      omega
    rw [h1]
    rw [show hob_comp_pot_loop 1 0 = some 0 from rfl]
    rw [log2_eq_of 1 0 (by norm_num) (by norm_num)]
  | succ j ihj =>
    intro n hn hn2
    rw [hob_comp_pot_loop]
    rw [show (1 <<< (j + 1) : Nat) = 2 ^ (j + 1) from Nat.one_shiftLeft (j + 1)]
    by_cases hb : n.testBit (j + 1)
    · rw [if_pos ((and_pow_eq_iff n (j + 1)).2 hb)]
      have hge : 2 ^ (j + 1) ≤ n := Nat.testBit_implies_ge hb
      rw [log2_eq_of n (j + 1) hge hn2]
    · rw [if_neg (fun hc => hb ((and_pow_eq_iff n (j + 1)).1 hc))]
      apply ihj n hn
      apply Nat.lt_pow_two_of_testBit
      intro i hi
      rcases Nat.eq_or_lt_of_le hi with he | hlt
      · rw [← he]
        exact Bool.of_not_eq_true hb
      · apply Nat.testBit_lt_two_pow
        calc n < 2 ^ (j + 1 + 1) := hn2
        _ ≤ 2 ^ i := Nat.pow_le_pow_right (by norm_num) hlt

theorem hob_comp_pot_eq_log2 (n : Nat) (h : n ≠ 0) (h32 : n < 2 ^ 32) :
    hob_comp_pot n = some (Nat.log2 n) := by
  simp only [hob_comp_pot, no_hob, beq_iff_eq, h, if_false]
  exact hob_comp_pot_loop_eq 31 n h h32

theorem log2_is_msb (n : Nat) (h : n ≠ 0) :
    n.testBit (Nat.log2 n) = true ∧ ∀ j, Nat.log2 n < j → n.testBit j = false := by
  have b1 : 2 ^ Nat.log2 n ≤ n := Nat.log2_self_le h
  have b2 : n < 2 ^ (Nat.log2 n + 1) := Nat.lt_log2_self
  constructor
  · rw [Nat.testBit_to_div_mod]
    have hp : 0 < 2 ^ Nat.log2 n := Nat.two_pow_pos _
    have e : 2 ^ (Nat.log2 n + 1) = 2 * 2 ^ Nat.log2 n := by ring
    have q1 : 1 ≤ n / 2 ^ Nat.log2 n := (Nat.one_le_div_iff hp).2 b1
    have q2 : n / 2 ^ Nat.log2 n < 2 := (Nat.div_lt_iff_lt_mul hp).2 (by omega)
    have : n / 2 ^ Nat.log2 n = 1 := by omega
    rw [this]
    decide
  · intro j hj
    apply Nat.testBit_lt_two_pow
    calc n < 2 ^ (Nat.log2 n + 1) := b2
    _ ≤ 2 ^ j := Nat.pow_le_pow_right (by norm_num) hj

theorem xor_two_pow_of_testBit_false (i : Nat) :
    ∀ a : Nat, a.testBit i = false → a + 2 ^ i = a ^^^ 2 ^ i := by
  induction i with
  | zero =>
    intro a h
    have h2 : a % 2 = 0 := Nat.mod_two_eq_zero_iff_testBit_zero.2 h
    have d1 : (a ^^^ 1) / 2 = a / 2 := by
      rw [Nat.xor_div_two]
      norm_num
    have d2 : (a ^^^ 1) % 2 = 1 := by
      rw [Nat.xor_mod_two_eq_one]
      omega
    have d3 := Nat.div_add_mod (a ^^^ 1) 2
    have d4 := Nat.div_add_mod a 2
    simpa using (by omega : a + 1 = a ^^^ 1)
  | succ j ihj =>
    intro a h
    have h2 : (a / 2).testBit j = false := by
      rw [Nat.testBit_div_two]
      exact h
    have ih := ihj (a / 2) h2
    have e : 2 ^ (j + 1) = 2 * 2 ^ j := by ring
    have d1 : (a ^^^ 2 ^ (j + 1)) / 2 = a / 2 ^^^ 2 ^ j := by
      rw [Nat.xor_div_two]
      congr 1
      omega
    have d2 : (a ^^^ 2 ^ (j + 1)) % 2 = a % 2 := by
      have hiff := Nat.xor_mod_two_eq_one (a := a) (b := 2 ^ (j + 1))
      have hx : (a ^^^ 2 ^ (j + 1)) % 2 < 2 := Nat.mod_lt _ (by omega)
      omega
    have d3 := Nat.div_add_mod (a ^^^ 2 ^ (j + 1)) 2
    have d4 := Nat.div_add_mod a 2
    omega

theorem sub_two_pow_of_testBit_true (a i : Nat) (h : a.testBit i = true) :
    a - 2 ^ i = a ^^^ 2 ^ i := by
  have h2 : (a ^^^ 2 ^ i).testBit i = false := by
    simp [Nat.testBit_xor, h, Nat.testBit_two_pow_self]
  have h3 := xor_two_pow_of_testBit_false i (a ^^^ 2 ^ i) h2
  rw [Nat.xor_cancel_right] at h3
  omega

theorem testBit_unset_sub (n i j : Nat) :
    ((n ||| 1 <<< i) - 1 <<< i).testBit j = (n.testBit j && !(decide (j = i))) := by
  rw [Nat.one_shiftLeft]
  have hset : (n ||| 2 ^ i).testBit i = true := by
    simp [Nat.testBit_or, Nat.testBit_two_pow_self]
  rw [sub_two_pow_of_testBit_true _ _ hset]
  simp only [Nat.testBit_xor, Nat.testBit_or, Nat.testBit_two_pow]
  by_cases hij : j = i
  · subst hij
    cases n.testBit j <;> simp
  · simp [hij, Ne.symm hij]

theorem testBit_unset_xor (n i j : Nat) :
    (n &&& (n ^^^ 1 <<< i)).testBit j = (n.testBit j && !(decide (j = i))) := by
  rw [Nat.one_shiftLeft]
  simp only [Nat.testBit_and, Nat.testBit_xor, Nat.testBit_two_pow]
  by_cases hij : j = i
  · subst hij
    cases n.testBit j <;> simp
  · simp [hij, Ne.symm hij]

theorem testBit_unset_not (n i j : Nat) (hn : n < 2 ^ 32) :
    (n &&& ((2 ^ 32 - 1) ^^^ 1 <<< i)).testBit j = (n.testBit j && !(decide (j = i))) := by
  rw [Nat.one_shiftLeft]
  simp only [Nat.testBit_and, Nat.testBit_xor, Nat.testBit_two_pow,
    Nat.testBit_two_pow_sub_one]
  by_cases hj : j < 32
  · by_cases hij : j = i
    · subst hij
      simp [hj]
    · simp [hj, hij, Ne.symm hij]
  · have hz : n.testBit j = false :=
      Nat.testBit_lt_two_pow
        (lt_of_lt_of_le hn (Nat.pow_le_pow_right (by norm_num) (by omega)))
    simp [hz]

theorem unset_xor_value_eq (n i : Nat) :
    n &&& (n ^^^ 1 <<< i) = (n ||| 1 <<< i) - 1 <<< i :=
  Nat.eq_of_testBit_eq fun j => by rw [testBit_unset_xor, testBit_unset_sub]

theorem unset_not_value_eq (n i : Nat) (hn : n < 2 ^ 32) :
    n &&& ((2 ^ 32 - 1) ^^^ 1 <<< i) = (n ||| 1 <<< i) - 1 <<< i :=
  Nat.eq_of_testBit_eq fun j => by rw [testBit_unset_not n i j hn, testBit_unset_sub]

theorem manipulate_bit_lt (i : Nat) (hi : i < 32) (f : Unit → Nat) :
    manipulate_bit i f = some (f ()) := by
  simp [manipulate_bit, Nat.not_le.2 hi]

theorem manipulate_bit_ge (i : Nat) (hi : 32 ≤ i) (f : Unit → Nat) :
    manipulate_bit i f = none := by
  simp [manipulate_bit, hi]

theorem circular_shl_mod8 (b c : Nat) : circular_shl b c = circular_shl b (c % 8) := by
  simp only [circular_shl, circular_sh_base]
  have h : c % 8 % 8 = c % 8 := by omega
  rw [h]

theorem circular_shr_mod8 (b c : Nat) : circular_shr b c = circular_shr b (c % 8) := by
  simp only [circular_shr, circular_sh_base]
  have h : c % 8 % 8 = c % 8 := by omega
  rw [h]

set_option maxRecDepth 8192 in
theorem circular_roundtrip_small :
    ∀ b, b < 256 → ∀ s, s < 8 →
      circular_shr (circular_shl b s) s = b ∧ circular_shl (circular_shr b s) s = b := by
  decide

theorem entries_loop_step (number fuel pattern matched : Nat) :
    entries_loop number (fuel + 1) pattern matched =
      (let matched2 := if pattern &&& number = pattern then matched + 1 else matched
      if pattern &&& (1 <<< 31) = 1 <<< 31 then matched2
      else entries_loop number fuel ((pattern <<< 1) % 2 ^ 32) matched2) := rfl

theorem testBit_swap_direct (n mi ma j : Nat) (hord : mi < ma) (hma : ma < 32) :
    (n &&& (n ^^^ 1 <<< mi ^^^ 1 <<< ma) |||
      (n >>> (ma - mi)) &&& 1 <<< mi |||
      ((n <<< (ma - mi)) % 2 ^ 32) &&& 1 <<< ma).testBit j =
    (if j = mi then n.testBit ma else if j = ma then n.testBit mi
      else n.testBit j) := by
  simp only [Nat.one_shiftLeft, Nat.testBit_or, Nat.testBit_and, Nat.testBit_xor,
    Nat.testBit_two_pow, Nat.testBit_shiftRight, Nat.testBit_mod_two_pow,
    Nat.testBit_shiftLeft]
  by_cases hj1 : j = mi
  · subst hj1
    have e1 : ma - j + j = ma := by omega
    have e2 : ¬ (ma = j) := by omega
    simp only [if_pos rfl, e1, e2, decide_eq_false e2, decide_eq_true_eq]
    cases hx : n.testBit j <;> cases hy : n.testBit ma <;> simp [hx, hy]
  · by_cases hj2 : j = ma
    · subst hj2
      have e1 : ¬ (mi = j) := by omega
      have e2 : j - mi ≤ j := by omega
      have e3 : j - (j - mi) = mi := by omega
      simp only [if_neg hj1, if_pos rfl, e3, decide_eq_false e1,
        decide_eq_true e2, decide_eq_true (show j < 32 from hma),
        decide_eq_true_eq]
      cases hx : n.testBit j <;> cases hy : n.testBit mi <;> simp [hx, hy]
    · have e1 : ¬ (mi = j) := fun h => hj1 h.symm
      have e2 : ¬ (ma = j) := fun h => hj2 h.symm
      simp only [if_neg hj1, if_neg hj2, decide_eq_false e1, decide_eq_false e2]
      cases hx : n.testBit j <;> simp [hx]

theorem testBit_swap_xor (n i1 i2 j : Nat) (hne : i1 ≠ i2) (h1 : i1 < 32) (h2 : i2 < 32) :
    (n ^^^
      ((((n >>> i1) &&& 1 ^^^ (n >>> i2) &&& 1) <<< i1) % 2 ^ 32 |||
        (((n >>> i1) &&& 1 ^^^ (n >>> i2) &&& 1) <<< i2) % 2 ^ 32)).testBit j =
    (if j = i1 then n.testBit i2 else if j = i2 then n.testBit i1
      else n.testBit j) := by
  have e1 : (n >>> i1) &&& 1 = (n.testBit i1).toNat := by
    rw [Nat.and_one_is_mod, Nat.shiftRight_eq_div_pow, Nat.toNat_testBit]
  have e2 : (n >>> i2) &&& 1 = (n.testBit i2).toNat := by
    rw [Nat.and_one_is_mod, Nat.shiftRight_eq_div_pow, Nat.toNat_testBit]
  rw [e1, e2]
  have p1 : 2 ^ i1 % 2 ^ 32 = 2 ^ i1 :=
    Nat.mod_eq_of_lt (Nat.pow_lt_pow_right (by norm_num) h1)
  have p2 : 2 ^ i2 % 2 ^ 32 = 2 ^ i2 :=
    Nat.mod_eq_of_lt (Nat.pow_lt_pow_right (by norm_num) h2)
  cases hb1 : n.testBit i1 <;> cases hb2 : n.testBit i2 <;>
    [skip; skip; skip; skip] <;>
  · simp only [Bool.toNat_false, Bool.toNat_true, Nat.xor_self, Nat.zero_xor,
      Nat.xor_zero, Nat.zero_shiftLeft, Nat.zero_mod, Nat.zero_or, Nat.or_zero,
      Nat.one_shiftLeft, p1, p2, Nat.testBit_xor, Nat.testBit_or,
      Nat.testBit_two_pow]
    by_cases hj1 : j = i1
    · subst hj1
      have f1 : ¬ (i2 = j) := fun h => hne h.symm
      simp [hb1, hb2, f1]
    · by_cases hj2 : j = i2
      · subst hj2
        have f1 : ¬ (i1 = j) := hne
        simp [hb1, hb2, f1, hj1]
      · have f1 : ¬ (i1 = j) := fun h => hj1 h.symm
        have f2 : ¬ (i2 = j) := fun h => hj2 h.symm
        simp [hj1, hj2, f1, f2]

theorem swap_spec_comm (t : Nat → Bool) (i1 i2 j : Nat) (hne : i1 ≠ i2) :
    (if j = i1 then t i2 else if j = i2 then t i1 else t j) =
    (if j = i2 then t i1 else if j = i1 then t i2 else t j) := by
  by_cases hj1 : j = i1 <;> by_cases hj2 : j = i2 <;> simp_all

/-! ## Theorems -/

/-- C2: all three highest-order-bit functions return `none` at 0, and for
every input in `1..=u32::MAX` they return the same present value — the
zero-based index of the most significant set bit (the returned index `k` has
bit `k` set in the input and every higher bit clear). -/
theorem hob_variants_agree :
    hob 0 = none ∧ hob_thr 0 = none ∧ hob_comp_pot 0 = none ∧
    ∀ n, 0 < n → n < 2 ^ 32 →
      ∃ k, hob n = some k ∧ hob_thr n = some k ∧ hob_comp_pot n = some k ∧
        n.testBit k = true ∧ ∀ j, k < j → n.testBit j = false := by
  refine ⟨rfl, rfl, rfl, fun n hn hn32 => ⟨Nat.log2 n, ?_, ?_, ?_, ?_, ?_⟩⟩
  · exact hob_eq_log2 n (by omega)
  · exact hob_thr_eq_log2 n (by omega) hn32
  · exact hob_comp_pot_eq_log2 n (by omega) hn32
  · exact (log2_is_msb n (by omega)).1
  · exact (log2_is_msb n (by omega)).2

/-- Witness for C2 at the concrete input 4. -/
theorem hob_variants_agree_witness :
    (0 : Nat) < 4 ∧ (4 : Nat) < 2 ^ 32 ∧
      ∃ k, hob 4 = some k ∧ hob_thr 4 = some k ∧ hob_comp_pot 4 = some k ∧
        (4 : Nat).testBit k = true ∧ ∀ j, k < j → (4 : Nat).testBit j = false :=
  ⟨by decide, by decide, hob_variants_agree.2.2.2 4 (by decide) (by decide)⟩

/-- C3: for every 32-bit input the two population-count implementations
return the same value; in particular both return 0 at input 0 and 32 at the
all-ones input `u32::MAX`. -/
theorem binary_ones_counts_agree :
    (∀ n, n < 2 ^ 32 → binary_ones_count n = binary_ones_count_sub_method n) ∧
    binary_ones_count 0 = 0 ∧ binary_ones_count_sub_method 0 = 0 ∧
    binary_ones_count (2 ^ 32 - 1) = 32 ∧ binary_ones_count_sub_method (2 ^ 32 - 1) = 32 := by
  refine ⟨fun n _ => ?_, ?_, ?_, ?_, ?_⟩
  · rw [binary_ones_count_eq_countOnes, binary_ones_count_sub_method_eq_countOnes]
  · rw [binary_ones_count_eq_countOnes, countOnes_zero]
  · rw [binary_ones_count_sub_method_eq_countOnes, countOnes_zero]
  · rw [binary_ones_count_eq_countOnes, countOnes_two_pow_sub_one]
  · rw [binary_ones_count_sub_method_eq_countOnes, countOnes_two_pow_sub_one]

/-- Witness for C3 at a concrete input. -/
theorem binary_ones_counts_agree_witness :
    (5 : Nat) < 2 ^ 32 ∧ binary_ones_count 5 = binary_ones_count_sub_method 5 :=
  ⟨by decide, binary_ones_counts_agree.1 5 (by decide)⟩

/-- C8: for every power in [0,31], `power_of_two power` returns `Ok (2^power)`;
for every power ≥ 32 it returns the distinct `Overflow` error, not the absence
signal. -/
theorem power_of_two_correct :
    (∀ power, power < 32 → power_of_two power = .ok (2 ^ power)) ∧
    (∀ power, 32 ≤ power → power_of_two power = .error .mk) := by
  constructor
  · intro p hp
    simp [power_of_two, hp, Nat.one_shiftLeft]
  · intro p hp
    simp [power_of_two, Nat.not_lt.mpr hp]

/-- Witness for C8 at concrete inputs, including the maximum `u32` exponent. -/
theorem power_of_two_correct_witness :
    power_of_two 3 = .ok 8 ∧ power_of_two 32 = .error .mk ∧
      power_of_two (2 ^ 32 - 1) = .error .mk := by
  refine ⟨?_, ?_, ?_⟩
  · have h := power_of_two_correct.1 3 (by decide)
    simpa using h
  · exact power_of_two_correct.2 32 (by decide)
  · exact power_of_two_correct.2 (2 ^ 32 - 1) (by decide)

/-- C1 fails on the code at `index = 31`: the guard admits the index, but the
body computes `number >> (index + 1) = number >> 32`, an overflowing `u32`
shift.  With debug assertions this panics; with masked (release) semantics the
shift amount wraps to `0` and `remove_bit 1 31` returns `Some(2^31 + 1)` — bit
31 becomes a copy of bit 0 instead of the claimed cleared bit. -/
theorem remove_bit_bug_at_31 :
    remove_bit 1 31 = .error .shiftOverflow ∧
      remove_bit_masked 1 31 = some (2 ^ 31 + 1) := by
  exact ⟨rfl, rfl⟩

/-- C7: starting from the all-ones 32-bit value, thirty-one successive
applications of `remove_bit` at index 0 — each producing a present value that
feeds the next — end at the value 1. -/
theorem remove_bit_cascade : remove_bit_iter 31 (2 ^ 32 - 1) = .ok (some 1) := by
  rfl

/-- C4: for indices in `[0,32)` the three bit-clearing variants return the
same present value — the input with the addressed bit forced to 0 and every
other bit unchanged — and all three return `none` for indices ≥ 32. -/
theorem unset_bit_variants_agree :
    (∀ n i, n < 2 ^ 32 → i < 32 →
      ∃ v, unset_bit n i = some v ∧ unset_bit_xor n i = some v ∧
        unset_bit_bitwise_not n i = some v ∧ v.testBit i = false ∧
        ∀ j, j ≠ i → v.testBit j = n.testBit j) ∧
    (∀ n i, 32 ≤ i →
      unset_bit n i = none ∧ unset_bit_xor n i = none ∧
        unset_bit_bitwise_not n i = none) := by
  constructor
  · intro n i hn hi
    refine ⟨(n ||| 1 <<< i) - 1 <<< i, ?_, ?_, ?_, ?_, ?_⟩
    · rw [unset_bit, manipulate_bit_lt i hi]
    · rw [unset_bit_xor, manipulate_bit_lt i hi, unset_xor_value_eq]
    · rw [unset_bit_bitwise_not, manipulate_bit_lt i hi, unset_not_value_eq n i hn]
    · rw [testBit_unset_sub]
      simp
    · intro j hj
      rw [testBit_unset_sub]
      simp [hj]
  · intro n i hi
    exact ⟨manipulate_bit_ge i hi _, manipulate_bit_ge i hi _, manipulate_bit_ge i hi _⟩

/-- Witness for C4 at `number = 5`, `index = 2` and an out-of-range index. -/
theorem unset_bit_variants_agree_witness :
    ((5 : Nat) < 2 ^ 32 ∧ (2 : Nat) < 32 ∧
      ∃ v, unset_bit 5 2 = some v ∧ unset_bit_xor 5 2 = some v ∧
        unset_bit_bitwise_not 5 2 = some v ∧ v.testBit 2 = false ∧
        ∀ j, j ≠ 2 → v.testBit j = (5 : Nat).testBit j) ∧
    unset_bit 5 45 = none :=
  ⟨⟨by decide, by decide, unset_bit_variants_agree.1 5 2 (by decide) (by decide)⟩,
    (unset_bit_variants_agree.2 5 45 (by decide)).1⟩

/-- C10: for every 32-bit number and index in `[0,32)`, each of `set_bit`,
the three `unset_bit` variants and `invert_bit` returns a present value whose
bits at all positions other than `index` equal the input's bits there. -/
theorem single_bit_ops_preserve_other_bits :
    ∀ n i, n < 2 ^ 32 → i < 32 →
      preservesOtherBits n i (set_bit n i) ∧
      preservesOtherBits n i (unset_bit n i) ∧
      preservesOtherBits n i (unset_bit_xor n i) ∧
      preservesOtherBits n i (unset_bit_bitwise_not n i) ∧
      preservesOtherBits n i (invert_bit n i) := by
  intro n i hn hi
  refine ⟨⟨n ||| 1 <<< i, ?_, ?_⟩, ⟨(n ||| 1 <<< i) - 1 <<< i, ?_, ?_⟩,
    ⟨n &&& (n ^^^ 1 <<< i), ?_, ?_⟩, ⟨n &&& ((2 ^ 32 - 1) ^^^ 1 <<< i), ?_, ?_⟩,
    ⟨n ^^^ 1 <<< i, ?_, ?_⟩⟩
  · rw [set_bit, manipulate_bit_lt i hi]
  · intro j hj
    rw [Nat.one_shiftLeft]
    simp [Nat.testBit_or, Nat.testBit_two_pow, Ne.symm hj]
  · rw [unset_bit, manipulate_bit_lt i hi]
  · intro j hj
    rw [testBit_unset_sub]
    simp [hj]
  · rw [unset_bit_xor, manipulate_bit_lt i hi]
  · intro j hj
    rw [testBit_unset_xor]
    simp [hj]
  · rw [unset_bit_bitwise_not, manipulate_bit_lt i hi]
  · intro j hj
    rw [testBit_unset_not n i j hn]
    simp [hj]
  · rw [invert_bit, manipulate_bit_lt i hi]
  · intro j hj
    rw [Nat.one_shiftLeft]
    simp [Nat.testBit_xor, Nat.testBit_two_pow, Ne.symm hj]

/-- Witness for C10 at `number = 5`, `index = 1`. -/
theorem single_bit_ops_preserve_other_bits_witness :
    (5 : Nat) < 2 ^ 32 ∧ (1 : Nat) < 32 ∧
      (preservesOtherBits 5 1 (set_bit 5 1) ∧
        preservesOtherBits 5 1 (unset_bit 5 1) ∧
        preservesOtherBits 5 1 (unset_bit_xor 5 1) ∧
        preservesOtherBits 5 1 (unset_bit_bitwise_not 5 1) ∧
        preservesOtherBits 5 1 (invert_bit 5 1)) :=
  ⟨by decide, by decide, single_bit_ops_preserve_other_bits 5 1 (by decide) (by decide)⟩

/-- C6: for every 8-bit byte and every count, left rotation and right
rotation by the same count are mutual inverses. -/
theorem circular_shifts_mutual_inverse :
    ∀ byte, byte < 256 → ∀ count,
      circular_shr (circular_shl byte count) count = byte ∧
      circular_shl (circular_shr byte count) count = byte := by
  intro b hb c
  have h8 : c % 8 < 8 := by omega
  constructor
  · rw [circular_shl_mod8 b c, circular_shr_mod8 _ c]
    exact (circular_roundtrip_small b hb (c % 8) h8).1
  · rw [circular_shr_mod8 b c, circular_shl_mod8 _ c]
    exact (circular_roundtrip_small b hb (c % 8) h8).2

/-- Witness for C6 at `byte = 0b10000011`, `count = 10`. -/
theorem circular_shifts_mutual_inverse_witness :
    (131 : Nat) < 256 ∧
      circular_shr (circular_shl 131 10) 10 = 131 ∧
      circular_shl (circular_shr 131 10) 10 = 131 :=
  ⟨by decide, circular_shifts_mutual_inverse 131 (by decide) 10⟩

/-- C9: `consecutive_ones_entries_count` returns `none` exactly when the run
length is 0 or exceeds 32; run length exactly 32 is accepted, counting 1 for
`u32::MAX` and 0 for every other 32-bit number. -/
theorem consecutive_ones_entries_count_spec :
    (∀ n, consecutive_ones_entries_count n 0 = none) ∧
    (∀ n c, 32 < c → consecutive_ones_entries_count n c = none) ∧
    (∀ n c, 1 ≤ c → c ≤ 32 → (consecutive_ones_entries_count n c).isSome = true) ∧
    consecutive_ones_entries_count (2 ^ 32 - 1) 32 = some 1 ∧
    (∀ n, n < 2 ^ 32 → n ≠ 2 ^ 32 - 1 →
      consecutive_ones_entries_count n 32 = some 0) := by
  refine ⟨fun n => rfl, ?_, ?_, by decide, ?_⟩
  · intro n c hc
    simp [consecutive_ones_entries_count, consecutive_ones_number,
      show ¬ (1 ≤ c ∧ c ≤ 31) by omega, show c ≠ 32 by omega]
  · intro n c h1 h2
    by_cases h3 : c ≤ 31
    · simp [consecutive_ones_entries_count, consecutive_ones_number, h1, h3]
    · simp [consecutive_ones_entries_count, consecutive_ones_number,
        show ¬ (1 ≤ c ∧ c ≤ 31) by omega, show c = 32 by omega]
  · intro n hn hne
    have hp : consecutive_ones_number 32 = some (2 ^ 32 - 1) := by decide
    rw [consecutive_ones_entries_count, hp, Option.map_some',
      show (33 : Nat) = 32 + 1 from rfl, entries_loop_step]
    have key : (4294967295 : Nat) &&& n = n := by
      rw [show (4294967295 : Nat) = 2 ^ 32 - 1 by norm_num, Nat.and_comm,
        Nat.and_pow_two_sub_one_eq_mod, Nat.mod_eq_of_lt hn]
    have hcond : ¬ ((4294967295 : Nat) &&& n = 4294967295) := by
      rw [key]
      omega
    have hbreak : (4294967295 : Nat) &&& 2147483648 = 2147483648 := by decide
    simp [hcond, hbreak]

/-- Witness for C9 at run length 32 with a number other than `u32::MAX`. -/
theorem consecutive_ones_entries_count_spec_witness :
    consecutive_ones_entries_count 7 0 = none ∧
      consecutive_ones_entries_count 7 45 = none ∧
      (consecutive_ones_entries_count 7 2).isSome = true ∧
      consecutive_ones_entries_count 7 32 = some 0 :=
  ⟨consecutive_ones_entries_count_spec.1 7,
    consecutive_ones_entries_count_spec.2.1 7 45 (by decide),
    consecutive_ones_entries_count_spec.2.2.1 7 2 (by decide) (by decide),
    consecutive_ones_entries_count_spec.2.2.2.2 7 (by decide) (by decide)⟩

/-- C5: `swap_bits` and `swap_bits_xor` return `none` when either index is
≥ 32; equal in-range indices return the number unchanged; and for in-range
indices both return the same present value, whose bits are the input's with
the two addressed positions exchanged. -/
theorem swap_bits_variants_agree :
    ∀ n i1 i2,
      (32 ≤ i1 ∨ 32 ≤ i2 → swap_bits n i1 i2 = none ∧ swap_bits_xor n i1 i2 = none) ∧
      (i1 = i2 → i1 < 32 → swap_bits n i1 i2 = some n ∧ swap_bits_xor n i1 i2 = some n) ∧
      (i1 < 32 → i2 < 32 →
        ∃ v, swap_bits n i1 i2 = some v ∧ swap_bits_xor n i1 i2 = some v ∧
          ∀ j, v.testBit j =
            (if j = i1 then n.testBit i2 else if j = i2 then n.testBit i1
              else n.testBit j)) := by
  intro n i1 i2
  refine ⟨?_, ?_, ?_⟩
  · intro h
    have hc : ¬ i1 < 32 ∨ ¬ i2 < 32 := by omega
    constructor <;>
    · simp only [swap_bits, swap_bits_xor, swap_bits_base]
      rw [if_pos hc]
  · intro heq h1
    subst heq
    constructor <;> simp [swap_bits, swap_bits_xor, swap_bits_base, h1]
  · intro h1 h2
    have hguard : ¬ (¬ i1 < 32 ∨ ¬ i2 < 32) := by omega
    by_cases heq : i1 = i2
    · subst heq
      refine ⟨n, ?_, ?_, ?_⟩
      · simp [swap_bits, swap_bits_base, h1]
      · simp [swap_bits_xor, swap_bits_base, h1]
      · intro j
        by_cases hj : j = i1 <;> simp [hj]
    · by_cases hgt : i1 > i2
      · refine ⟨n &&& (n ^^^ 1 <<< i2 ^^^ 1 <<< i1) |||
          (n >>> (i1 - i2)) &&& 1 <<< i2 |||
          ((n <<< (i1 - i2)) % 2 ^ 32) &&& 1 <<< i1, ?_, ?_, ?_⟩
        · simp only [swap_bits, swap_bits_base, if_neg hguard, if_neg heq, if_pos hgt]
        · simp only [swap_bits_xor, swap_bits_base, if_neg hguard, if_neg heq]
          congr 1
          apply Nat.eq_of_testBit_eq
          intro j
          rw [testBit_swap_xor n i1 i2 j heq h1 h2, testBit_swap_direct n i2 i1 j hgt h1]
          exact swap_spec_comm n.testBit i1 i2 j heq
        · intro j
          rw [testBit_swap_direct n i2 i1 j hgt h1]
          exact (swap_spec_comm n.testBit i1 i2 j heq).symm
      · have hlt : i1 < i2 := by omega
        refine ⟨n &&& (n ^^^ 1 <<< i1 ^^^ 1 <<< i2) |||
          (n >>> (i2 - i1)) &&& 1 <<< i1 |||
          ((n <<< (i2 - i1)) % 2 ^ 32) &&& 1 <<< i2, ?_, ?_, ?_⟩
        · simp only [swap_bits, swap_bits_base, if_neg hguard, if_neg heq, if_neg hgt]
        · simp only [swap_bits_xor, swap_bits_base, if_neg hguard, if_neg heq]
          congr 1
          apply Nat.eq_of_testBit_eq
          intro j
          rw [testBit_swap_xor n i1 i2 j heq h1 h2, testBit_swap_direct n i1 i2 j hlt h2]
        · intro j
          rw [testBit_swap_direct n i1 i2 j hlt h2]

/-- Witness for C5 at `number = 0b100011`, indices 1 and 4, plus an
out-of-range pair. -/
theorem swap_bits_variants_agree_witness :
    (swap_bits 35 300 4 = none ∧ swap_bits_xor 35 300 4 = none) ∧
      ∃ v, swap_bits 35 1 4 = some v ∧ swap_bits_xor 35 1 4 = some v ∧
        ∀ j, v.testBit j =
          (if j = 1 then (35 : Nat).testBit 4 else if j = 4 then (35 : Nat).testBit 1
            else (35 : Nat).testBit j) :=
  ⟨(swap_bits_variants_agree 35 300 4).1 (by decide),
    (swap_bits_variants_agree 35 1 4).2.2 (by decide) (by decide)⟩

end UnderstandingBitwise
